import Mathlib

/-!
Shallow embedding of the data-quality / alignment / persistence core of the
mt5_multi-timeframe_model repository, and proofs of the frozen claims about it.

Conventions of the embedding:
* numpy arrays become Lean lists; numpy int64 timestamps become `Int`
  (no arithmetic here can overflow 64 bits on the inputs considered);
  float payloads (prices, spreads, ratios) are modelled exactly as `ℚ`;
* a Python function that mutates `self.validation_results` is modelled as a
  pure function that additionally returns the list of (key, value) pairs it
  assigned into that dict, in order;
* values stored in the results dict (bools, numbers, flat dicts of numbers)
  are modelled by the `RVal` type below.
-/

/-- Values stored in `DataValidator.validation_results`: a bool, a number, or a
flat dict of named numbers (Python ints are embedded into ℚ, matching the
`int(...)` / `float(...)` coercions performed at the assignment sites). -/
inductive RVal where
  | bool (b : Bool)
  | num (q : ℚ)
  | record (fields : List (String × ℚ))
deriving DecidableEq

/-- Detail of the first monotonicity violation, as computed at
validator.py lines 51-57 (index, the two timestamps, their difference);
the two timestamp values appear in the error log, the index and the
difference also in the results dict. -/
structure MonoViolation where
  index : Nat
  v1 : Int
  v2 : Int
  diff : Int
deriving DecidableEq

/-- Observable outcome of `DataValidator.check_monotonic`: the returned bool,
the first-violation detail when one was reported, and the results-dict
writes performed. -/
structure MonotonicOut where
  passed : Bool
  detail : Option MonoViolation
  writes : List (String × RVal)
deriving DecidableEq

/-- Embedding of `DataValidator.check_monotonic` (validator.py 26-73).
`diffs = np.diff(timestamps)`; `violation_indices = np.where(diffs <= 0)[0]`
is the ordered list of indices with non-positive difference, whose first
element (when any) is reported.  On empty input the function logs a warning
and returns False without touching the results dict. -/
def check_monotonic (ts : List Int) (nm : String) : MonotonicOut :=
  if ts.isEmpty then ⟨false, none, []⟩
  else
    let diffs := List.zipWith (fun a b => b - a) ts ts.tail
    let violIdx := (List.range diffs.length).filter fun i => decide (diffs.getD i 0 ≤ 0)
    match violIdx.head? with
    | some i =>
        ⟨false,
         some ⟨i, ts.getD i 0, ts.getD (i + 1) 0, diffs.getD i 0⟩,
         [(nm ++ "_monotonic", .bool false),
          (nm ++ "_monotonic_violations",
           .record [("count", (violIdx.length : ℚ)),
                    ("first_violation_index", (i : ℚ)),
                    ("first_violation_diff", ((diffs.getD i 0 : Int) : ℚ))])]⟩
    | none => ⟨true, none, [(nm ++ "_monotonic", .bool true)]⟩

/-- Detail of the first duplicate reported by `check_duplicates`
(validator.py 98-107): how many distinct values collide, the first
(smallest, since `np.unique` sorts) colliding value, its repeat count,
and the first at most 5 positions where it occurs (the `[:5]` slice of
`np.where(timestamps == first_dup_value)[0]`). -/
structure DupDetail where
  uniqueDupValues : Nat
  firstValue : Int
  firstCount : Nat
  firstIndices : List Nat
deriving DecidableEq

/-- Observable outcome of `DataValidator.check_duplicates`. -/
structure DupOut where
  passed : Bool
  count : Nat
  detail : Option DupDetail
  writes : List (String × RVal)
deriving DecidableEq

/-- Embedding of `np.unique(timestamps)`: the distinct values in sorted
order. -/
def npUnique (ts : List Int) : List Int :=
  List.insertionSort (fun a b => a ≤ b) ts.dedup

/-- Embedding of `DataValidator.check_duplicates` (validator.py 75-119).
`duplicate_count = len(timestamps) - len(unique_values)`; the duplicated
values (`counts > 1`) are taken in `np.unique` order, so the reported first
one is the least duplicated value. -/
def check_duplicates (ts : List Int) (nm : String) : DupOut :=
  let uniq := npUnique ts
  let dupVals := uniq.filter fun v => decide (1 < ts.count v)
  let dcount := ts.length - uniq.length
  if 0 < dcount then
    let fv := dupVals.headD 0
    ⟨false, dcount,
     some ⟨dupVals.length, fv, ts.count fv,
           (((List.range ts.length).filter fun i => decide (ts.getD i 0 = fv)).take 5)⟩,
     [(nm ++ "_duplicates",
       .record [("count", (dcount : ℚ)),
                ("unique_duplicate_values", (dupVals.length : ℚ)),
                ("first_duplicate_value", ((fv : Int) : ℚ)),
                ("first_duplicate_count", ((ts.count fv : Nat) : ℚ))])]⟩
  else
    ⟨true, 0, none, [(nm ++ "_duplicates", .num 0)]⟩

/-- Observable outcome of `DataValidator.check_gap_ratio`. -/
structure GapOut where
  passed : Bool
  ratioVal : ℚ
  missing : Int
  writes : List (String × RVal)
deriving DecidableEq

/-- Embedding of `DataValidator.check_gap_ratio` (validator.py 121-164).
`expected_count = int(time_range / expected_interval) + 1`: Python `int()`
of the exact quotient truncates toward zero, i.e. `Int.tdiv` (the float
division is modelled exactly; the magnitudes in scope are far below 2^53).
With fewer than 2 samples the function returns `(True, 0.0, 0)` without
writing to the results dict; otherwise it writes the ratio under
`{name}_gap_ratio` on both branches. -/
def gapRatioCheck (ts : List Int) (interval : Int) (maxr : ℚ) (nm : String) : GapOut :=
  if ts.length < 2 then ⟨true, 0, 0, []⟩
  else
    let timeRange : Int := ts.getLastD 0 - ts.headD 0
    let expected : Int := timeRange.tdiv interval + 1
    let actual : Int := (ts.length : Int)
    let missing : Int := max 0 (expected - actual)
    let ratio : ℚ := if 0 < expected then (missing : ℚ) / (expected : ℚ) else 0
    if maxr < ratio then
      ⟨false, ratio, missing, [(nm ++ "_gap_ratio", .num ratio)]⟩
    else
      ⟨true, ratio, missing, [(nm ++ "_gap_ratio", .num ratio)]⟩

/-- Observable outcome of `DataValidator.check_spread_validity`:
detail = first negative index and value on failure. -/
structure SpreadOut where
  passed : Bool
  negCount : Nat
  detail : Option (Nat × ℚ)
  writes : List (String × RVal)
deriving DecidableEq

/-- Embedding of `DataValidator.check_spread_validity` (validator.py 166-202).
`negative_indices = np.where(spreads < 0)[0]`. -/
def check_spread_validity (sp : List ℚ) (nm : String) : SpreadOut :=
  let negIdx := (List.range sp.length).filter fun i => decide (sp.getD i 0 < 0)
  match negIdx.head? with
  | some i =>
      ⟨false, negIdx.length, some (i, sp.getD i 0),
       [(nm ++ "_negative_spread",
         .record [("count", (negIdx.length : ℚ)),
                  ("first_negative_index", (i : ℚ)),
                  ("first_negative_value", sp.getD i 0)])]⟩
  | none => ⟨true, 0, none, [(nm ++ "_negative_spread", .num 0)]⟩

/-- The (start, end-exclusive) index pairs of the maximal runs of zeros of a
value list, in order.  This is what the edge-detection in
`check_zero_streak` (validator.py 225-233) computes: with the zero/one
indicator padded by a 0 sentinel on each side, `np.diff` is `+1` exactly at
the start of each maximal zero run and `-1` exactly one past its end, so
`zero_starts` / `zero_ends` list these pairs in order.  The accumulator
holds the start of the currently open run. -/
def zeroRunsAux : List ℚ → Nat → Option Nat → List (Nat × Nat)
  | [], _, none => []
  | [], i, some s => [(s, i)]
  | v :: rest, i, none =>
      if v = 0 then zeroRunsAux rest (i + 1) (some i) else zeroRunsAux rest (i + 1) none
  | v :: rest, i, some s =>
      if v = 0 then zeroRunsAux rest (i + 1) (some s)
      else (s, i) :: zeroRunsAux rest (i + 1) none

/-- The maximal zero runs of a list, as (start, end-exclusive) pairs. -/
def zeroRuns (vs : List ℚ) : List (Nat × Nat) := zeroRunsAux vs 0 none

/-- Observable outcome of `DataValidator.check_zero_streak`:
detail = the recorded (start index, inclusive end index) of the longest run
on failure. -/
structure StreakOut where
  passed : Bool
  streak : Nat
  detail : Option (Nat × Nat)
  writes : List (String × RVal)
deriving DecidableEq

/-- Embedding of `DataValidator.check_zero_streak` (validator.py 204-256).
On empty input it returns `(True, 0)` without writing.  Otherwise the
longest-run length is the max of the run lengths (`0` when there is no
zero at all); on failure `np.argmax` picks the first run attaining the
max, and the recorded end index is `max_streak_end - 1` (inclusive).
The threshold is a count, embedded as `Nat` (the callers only ever pass
positive thresholds). -/
def check_zero_streak (vs : List ℚ) (maxStreak : Nat) (nm : String) : StreakOut :=
  if vs.isEmpty then ⟨true, 0, none, []⟩
  else
    let runs := zeroRuns vs
    let maxLen := (runs.map fun p => p.2 - p.1).foldr max 0
    if maxStreak < maxLen then
      let best := (runs.find? fun p => decide (p.2 - p.1 = maxLen)).getD (0, 0)
      ⟨false, maxLen, some (best.1, best.2 - 1),
       [(nm ++ "_max_zero_streak",
         .record [("max_streak", (maxLen : ℚ)),
                  ("max_streak_start_index", (best.1 : ℚ)),
                  ("max_streak_end_index", ((best.2 - 1 : Nat) : ℚ)),
                  ("threshold", (maxStreak : ℚ))])]⟩
    else
      ⟨true, maxLen, none, [(nm ++ "_max_zero_streak", .num maxLen)]⟩

/-! ## Generic helper lemmas -/

/-- In a strictly increasing list of naturals the head is a lower bound. -/
lemma head?_le_of_pairwise_lt {l : List Nat} {a : Nat}
    (hp : l.Pairwise (fun x y => x < y)) (h : l.head? = some a) :
    ∀ b ∈ l, a ≤ b := by
  cases l with
  | nil => simp at h
  | cons x xs =>
    simp only [List.head?_cons, Option.some.injEq] at h
    subst h
    intro b hb
    rcases List.mem_cons.mp hb with rfl | hb
    · exact Nat.le_refl _
    · exact Nat.le_of_lt ((List.pairwise_cons.mp hp).1 b hb)

/-- Characterisation of `np.where(pred)[0][0]`: the head of the filtered index
range is an index satisfying the predicate such that no smaller index does. -/
lemma head?_filter_range_some {p : Nat → Bool} {n i : Nat}
    (h : ((List.range n).filter p).head? = some i) :
    i < n ∧ p i = true ∧ ∀ j < i, p j = false := by
  have hmem : i ∈ (List.range n).filter p := by
    cases hf : (List.range n).filter p with
    | nil => simp [hf] at h
    | cons x xs =>
      rw [hf] at h
      simp only [List.head?_cons, Option.some.injEq] at h
      subst h
      simp [hf]
  have hi := List.mem_filter.mp hmem
  have hin : i < n := List.mem_range.mp hi.1
  refine ⟨hin, hi.2, ?_⟩
  intro j hj
  by_contra hpj
  have hjb : p j = true := by
    cases hpj2 : p j with
    | true => rfl
    | false => exact absurd hpj2 hpj
  have hjm : j ∈ (List.range n).filter p :=
    List.mem_filter.mpr ⟨List.mem_range.mpr (lt_trans hj hin), hjb⟩
  have hsorted : ((List.range n).filter p).Pairwise (fun x y => x < y) :=
    (List.pairwise_lt_range n).filter p
  have := head?_le_of_pairwise_lt hsorted h j hjm
  omega

/-- When `np.where(pred)[0]` is empty, no index satisfies the predicate. -/
lemma head?_filter_range_none {p : Nat → Bool} {n : Nat}
    (h : ((List.range n).filter p).head? = none) :
    ∀ j < n, p j = false := by
  intro j hj
  have hnil : (List.range n).filter p = [] := by
    cases hf : (List.range n).filter p with
    | nil => rfl
    | cons x xs => rw [hf] at h; simp at h
  have := List.filter_eq_nil_iff.mp hnil j (List.mem_range.mpr hj)
  cases hpj : p j with
  | true => exact absurd hpj this
  | false => rfl

/-- Length of `np.diff`. -/
lemma diffs_length (ts : List Int) :
    (List.zipWith (fun a b => b - a) ts ts.tail).length = ts.length - 1 := by
  simp [List.length_zipWith, List.length_tail]

/-- Entry `i` of `np.diff(ts)` is `ts[i+1] - ts[i]`. -/
lemma diffs_getD (ts : List Int) (i : Nat) (h : i + 1 < ts.length) :
    (List.zipWith (fun a b => b - a) ts ts.tail).getD i 0 =
      ts.getD (i + 1) 0 - ts.getD i 0 := by
  have h1 : i < ts.length := by omega
  have h2 : i < ts.tail.length := by simp [List.length_tail]; omega
  have hz : i < (List.zipWith (fun a b : Int => b - a) ts ts.tail).length := by
    simp [List.length_zipWith, List.length_tail]; omega
  rw [List.getD_eq_getElem _ _ hz, List.getD_eq_getElem _ _ h1,
    List.getD_eq_getElem _ _ h, List.getElem_zipWith]
  congr 1
  rw [List.getElem_tail]

/-! ## C5: check_monotonic -/

/-- C5. `check_monotonic` returns True exactly on non-empty strictly
increasing arrays (an empty array is itself a failure), and on a failure of
a non-empty array it reports the first adjacent pair with non-positive
difference: its index, both values and their difference. -/
theorem check_monotonic_spec (ts : List Int) (nm : String) :
    ((check_monotonic ts nm).passed = true ↔
      ts ≠ [] ∧ ∀ i, i + 1 < ts.length → ts.getD i 0 < ts.getD (i + 1) 0) ∧
    ((check_monotonic ts nm).passed = false → ts ≠ [] →
      ∃ k, (check_monotonic ts nm).detail =
          some ⟨k, ts.getD k 0, ts.getD (k + 1) 0,
                ts.getD (k + 1) 0 - ts.getD k 0⟩ ∧
        k + 1 < ts.length ∧ ts.getD (k + 1) 0 ≤ ts.getD k 0 ∧
        ∀ j < k, ts.getD j 0 < ts.getD (j + 1) 0) := by
  by_cases hemp : ts.isEmpty
  · have : ts = [] := List.isEmpty_iff.mp hemp
    subst this
    simp [check_monotonic]
  · have htne : ts ≠ [] := by
      intro hh; subst hh; simp at hemp
    unfold check_monotonic
    simp only [hemp, if_false, Bool.false_eq_true]
    set diffs := List.zipWith (fun a b : Int => b - a) ts ts.tail with hdiffs
    cases hh : ((List.range diffs.length).filter
        fun i => decide (diffs.getD i 0 ≤ 0)).head? with
    | some k =>
      obtain ⟨hkn, hpk, hleast⟩ := head?_filter_range_some hh
      have hklen : k + 1 < ts.length := by
        have := diffs_length ts
        rw [hdiffs] at *
        omega
      have hkval : ts.getD (k + 1) 0 ≤ ts.getD k 0 := by
        have := diffs_getD ts k hklen
        rw [← hdiffs] at this
        have hb := of_decide_eq_true hpk
        omega
      constructor
      · constructor
        · intro hcontr
          simp at hcontr
        · rintro ⟨-, hmono⟩
          have := hmono k hklen
          omega
      · intro _ _
        refine ⟨k, ?_, hklen, hkval, ?_⟩
        · have hd := diffs_getD ts k hklen
          rw [← hdiffs] at hd
          show some (⟨k, ts.getD k 0, ts.getD (k + 1) 0, diffs.getD k 0⟩ : MonoViolation) = _
          rw [hd]
        · intro j hj
          have hjlen : j + 1 < ts.length := by omega
          have hfalse := hleast j hj
          have := diffs_getD ts j hjlen
          rw [← hdiffs] at this
          have : ¬ (diffs.getD j 0 ≤ 0) := by
            intro hc
            rw [decide_eq_true hc] at hfalse
            exact Bool.true_eq_false.mp hfalse
          have h2 := diffs_getD ts j hjlen
          rw [← hdiffs] at h2
          omega
    | none =>
      have hall := head?_filter_range_none hh
      constructor
      · constructor
        · intro _
          refine ⟨htne, ?_⟩
          intro i hi
          have hilen : i < diffs.length := by
            have := diffs_length ts
            rw [hdiffs] at *
            omega
          have hfalse := hall i hilen
          have hd := diffs_getD ts i hi
          rw [← hdiffs] at hd
          have : ¬ (diffs.getD i 0 ≤ 0) := by
            intro hc
            rw [decide_eq_true hc] at hfalse
            exact Bool.true_eq_false.mp hfalse
          omega
        · intro _
          rfl
      · intro hcontr
        simp at hcontr

/-! ## C6: check_duplicates -/

/-- In a weakly sorted list the default-head is a lower bound. -/
lemma headD_min_of_sorted {l : List Int}
    (hs : l.Pairwise (fun a b : Int => a ≤ b)) :
    ∀ b ∈ l, l.headD 0 ≤ b := by
  cases l with
  | nil => intro b hb; simp at hb
  | cons x xs =>
    intro b hb
    rcases List.mem_cons.mp hb with rfl | hb
    · simp
    · simpa using (List.pairwise_cons.mp hs).1 b hb

/-- The sorted distinct values have the same length as `dedup`. -/
lemma npUnique_length (ts : List Int) : (npUnique ts).length = ts.dedup.length :=
  (List.perm_insertionSort _ _).length_eq

/-- Membership in the sorted distinct values is membership in the list. -/
lemma mem_npUnique {ts : List Int} {v : Int} : v ∈ npUnique ts ↔ v ∈ ts := by
  rw [npUnique, (List.perm_insertionSort _ _).mem_iff, List.mem_dedup]

/-- A list has a repeat exactly when `dedup` is strictly shorter. -/
lemma dedup_length_lt_iff {ts : List Int} :
    0 < ts.length - ts.dedup.length ↔ ¬ ts.Nodup := by
  have hle : ts.dedup.length ≤ ts.length := ts.dedup_sublist.length_le
  constructor
  · intro h hnd
    have : ts.dedup = ts := List.dedup_eq_self.mpr hnd
    rw [this] at h
    omega
  · intro hnd
    rcases Nat.lt_or_ge ts.dedup.length ts.length with hlt | hge
    · omega
    · exfalso
      have heq : ts.dedup = ts := ts.dedup_sublist.eq_of_length (by omega)
      exact hnd (List.dedup_eq_self.mp heq)

/-- C6. `check_duplicates` returns `count = length - distinct_count`, fails
exactly when that count is positive, passes with count 0 on repeat-free
arrays, and on failure reports the number of distinct colliding values, the
first (least) colliding value with its repeat count, and at most 5 of its
positions. -/
theorem check_duplicates_spec (ts : List Int) (nm : String) :
    ((check_duplicates ts nm).count = ts.length - ts.dedup.length) ∧
    ((check_duplicates ts nm).passed = false ↔ 0 < (check_duplicates ts nm).count) ∧
    (ts.Nodup → (check_duplicates ts nm).passed = true ∧
      (check_duplicates ts nm).count = 0) ∧
    (¬ ts.Nodup →
      ∃ d, (check_duplicates ts nm).detail = some d ∧
        2 ≤ ts.count d.firstValue ∧
        (∀ v : Int, 2 ≤ ts.count v → d.firstValue ≤ v) ∧
        d.firstCount = ts.count d.firstValue ∧
        d.uniqueDupValues = (ts.dedup.filter fun v => decide (1 < ts.count v)).length ∧
        d.firstIndices.length ≤ 5 ∧
        (∀ i ∈ d.firstIndices, ts.getD i 0 = d.firstValue)) := by
  have hlen := npUnique_length ts
  by_cases hc : 0 < ts.length - (npUnique ts).length
  · have hnodup : ¬ ts.Nodup := dedup_length_lt_iff.mp (by omega)
    have hout : check_duplicates ts nm =
        ⟨false, ts.length - (npUnique ts).length,
         some ⟨((npUnique ts).filter fun v => decide (1 < ts.count v)).length,
               ((npUnique ts).filter fun v => decide (1 < ts.count v)).headD 0,
               ts.count (((npUnique ts).filter fun v => decide (1 < ts.count v)).headD 0),
               (((List.range ts.length).filter fun i => decide (ts.getD i 0 =
                 ((npUnique ts).filter fun v => decide (1 < ts.count v)).headD 0)).take 5)⟩,
         [(nm ++ "_duplicates",
           .record [("count", ((ts.length - (npUnique ts).length : Nat) : ℚ)),
                    ("unique_duplicate_values",
                     ((((npUnique ts).filter fun v => decide (1 < ts.count v)).length : Nat) : ℚ)),
                    ("first_duplicate_value",
                     ((((npUnique ts).filter fun v => decide (1 < ts.count v)).headD 0 : Int) : ℚ)),
                    ("first_duplicate_count",
                     ((ts.count (((npUnique ts).filter fun v =>
                        decide (1 < ts.count v)).headD 0) : Nat) : ℚ))])]⟩ := by
      simp only [check_duplicates]
      rw [if_pos hc]
    set dupVals := (npUnique ts).filter fun v => decide (1 < ts.count v) with hdv
    set fv := dupVals.headD 0 with hfv
    have hmemdup : ∀ v : Int, 2 ≤ ts.count v → v ∈ dupVals := by
      intro v hv
      rw [hdv]
      refine List.mem_filter.mpr ⟨?_, ?_⟩
      · exact mem_npUnique.mpr (List.count_pos_iff.mp (by omega))
      · exact decide_eq_true (by omega)
    have hsorted : dupVals.Pairwise (fun a b : Int => a ≤ b) :=
      (List.sorted_insertionSort _ ts.dedup).filter _
    have hfvmem : fv ∈ dupVals := by
      obtain ⟨v, hv⟩ : ∃ v : Int, 2 ≤ ts.count v := by
        rcases (List.nodup_iff_count_le_one.not.mp hnodup) with h
        push_neg at h
        obtain ⟨a, ha⟩ := h
        exact ⟨a, by omega⟩
      have := hmemdup v hv
      cases hdvl : dupVals with
      | nil => rw [hdvl] at this; simp at this
      | cons x xs => rw [hfv, hdvl]; simp
    have hfvdup : 1 < ts.count fv := by
      have := (List.mem_filter.mp (hdv ▸ hfvmem)).2
      exact of_decide_eq_true this
    rw [hout]
    refine ⟨?_, ?_, ?_, ?_⟩
    · show ts.length - (npUnique ts).length = ts.length - ts.dedup.length
      omega
    · simpa using hc
    · intro hn; exact absurd hn hnodup
    · intro _
      refine ⟨_, rfl, ?_, ?_, ?_, ?_, ?_, ?_⟩
      · show 2 ≤ ts.count fv
        omega
      · intro v hv
        exact headD_min_of_sorted hsorted v (hmemdup v hv)
      · rfl
      · show dupVals.length = _
        rw [hdv, npUnique]
        exact ((List.perm_insertionSort _ ts.dedup).filter _).length_eq
      · show (((List.range ts.length).filter
            fun i => decide (ts.getD i 0 = fv)).take 5).length ≤ 5
        rw [List.length_take]
        omega
      · intro i hi
        have hmem := List.mem_of_mem_take hi
        exact of_decide_eq_true (List.mem_filter.mp hmem).2
  · have hnodup : ts.Nodup := by
      by_contra hn
      exact hc (by rw [hlen]; exact dedup_length_lt_iff.mpr hn)
    have hout : check_duplicates ts nm = ⟨true, 0, none, [(nm ++ "_duplicates", .num 0)]⟩ := by
      simp only [check_duplicates]
      rw [if_neg hc]
    rw [hout]
    refine ⟨?_, by simp, fun _ => ⟨rfl, rfl⟩, fun hn => absurd hnodup hn⟩
    show 0 = ts.length - ts.dedup.length
    omega

/-! ## C3: check_gap_ratio -/

/-- Specification-side formula for the expected sample count:
`floor((last - first) / nominal_interval) + 1`, written with floor
division, to be compared with the truncating division of the code. -/
def gapExpectedSpec (ts : List Int) (interval : Int) : Int :=
  (ts.getLastD 0 - ts.headD 0).fdiv interval + 1

/-- Specification-side missing count `max(0, expected - actual)`. -/
def gapMissingSpec (ts : List Int) (interval : Int) : Int :=
  max 0 (gapExpectedSpec ts interval - (ts.length : Int))

/-- Specification-side gap ratio `missing / expected` (0 when
`expected <= 0`). -/
def gapRatioSpec (ts : List Int) (interval : Int) : ℚ :=
  if 0 < gapExpectedSpec ts interval then
    (gapMissingSpec ts interval : ℚ) / (gapExpectedSpec ts interval : ℚ)
  else 0

/-- C3. `check_gap_ratio` realises the specification formulas (with floor
division, as the claim states them): fewer than 2 samples passes trivially
with ratio 0 and missing 0; otherwise the returned missing count and ratio
are the specification's and the check passes exactly when the ratio is at
most `max_ratio`; and on a span corresponding to an otherwise perfect
sequence missing exactly `m` interior points it returns `missing = m` and
`ratio = m / (m + actual_count)`. -/
theorem gapRatioCheck_spec (ts : List Int) (interval : Int) (maxr : ℚ)
    (nm : String) (hiv : 0 < interval) :
    (ts.length < 2 → gapRatioCheck ts interval maxr nm = ⟨true, 0, 0, []⟩) ∧
    (2 ≤ ts.length →
      (gapRatioCheck ts interval maxr nm).missing = gapMissingSpec ts interval ∧
      (gapRatioCheck ts interval maxr nm).ratioVal = gapRatioSpec ts interval ∧
      ((gapRatioCheck ts interval maxr nm).passed = true ↔
        gapRatioSpec ts interval ≤ maxr)) ∧
    (2 ≤ ts.length → ∀ m : Nat,
      ts.getLastD 0 - ts.headD 0 = ((ts.length : Int) - 1 + (m : Int)) * interval →
      (gapRatioCheck ts interval maxr nm).missing = (m : Int) ∧
      (gapRatioCheck ts interval maxr nm).ratioVal =
        (m : ℚ) / ((m : ℚ) + (ts.length : ℚ))) := by
  constructor
  · intro h2
    simp only [gapRatioCheck]
    rw [if_pos h2]
  · have hB : 2 ≤ ts.length →
        (gapRatioCheck ts interval maxr nm).missing = gapMissingSpec ts interval ∧
        (gapRatioCheck ts interval maxr nm).ratioVal = gapRatioSpec ts interval ∧
        ((gapRatioCheck ts interval maxr nm).passed = true ↔
          gapRatioSpec ts interval ≤ maxr) := by
      intro h2
      have h2n : ¬ ts.length < 2 := by omega
      set a := ts.getLastD 0 - ts.headD 0 with ha
      have hobs : max 0 (a.tdiv interval + 1 - (ts.length : Int)) =
            gapMissingSpec ts interval ∧
          (if 0 < a.tdiv interval + 1 then
              ((max 0 (a.tdiv interval + 1 - (ts.length : Int)) : Int) : ℚ) /
                ((a.tdiv interval + 1 : Int) : ℚ)
            else 0) = gapRatioSpec ts interval := by
        rcases le_or_lt 0 a with hnn | hneg
        · have : a.tdiv interval = a.fdiv interval := by
            rw [Int.tdiv_eq_ediv hnn (le_of_lt hiv), Int.fdiv_eq_ediv _ (le_of_lt hiv)]
          rw [gapMissingSpec, gapRatioSpec, gapExpectedSpec, gapMissingSpec,
            gapExpectedSpec, ← ha, this]
          exact ⟨rfl, rfl⟩
        · have htle : a.tdiv interval ≤ 0 := by
            have hng : 0 ≤ (-a).tdiv interval :=
              Int.tdiv_nonneg (by omega) (le_of_lt hiv)
            rw [Int.neg_tdiv] at hng
            omega
          have hfle : a.fdiv interval < 0 := by
            rw [Int.fdiv_eq_ediv _ (le_of_lt hiv)]
            exact Int.ediv_neg' hneg hiv
          have hm1 : max 0 (a.tdiv interval + 1 - (ts.length : Int)) = 0 := by
            omega
          have hm2 : gapMissingSpec ts interval = 0 := by
            rw [gapMissingSpec, gapExpectedSpec, ← ha]
            omega
          refine ⟨by rw [hm1, hm2], ?_⟩
          have hr2 : gapRatioSpec ts interval = 0 := by
            rw [gapRatioSpec, if_neg]
            rw [gapExpectedSpec, ← ha]
            omega
          rw [hr2, hm1]
          split
          · simp
          · rfl
      have hout : gapRatioCheck ts interval maxr nm =
          ⟨decide (gapRatioSpec ts interval ≤ maxr), gapRatioSpec ts interval,
           gapMissingSpec ts interval, [(nm ++ "_gap_ratio", .num (gapRatioSpec ts interval))]⟩ := by
        simp only [gapRatioCheck]
        rw [if_neg h2n, ← ha, hobs.2, hobs.1]
        rcases le_or_lt (gapRatioSpec ts interval) maxr with hle | hgt
        · rw [if_neg (not_lt.mpr hle), decide_eq_true hle]
        · rw [if_pos hgt, decide_eq_false (not_le.mpr hgt)]
      rw [hout]
      exact ⟨rfl, rfl, by simp⟩
    refine ⟨hB, ?_⟩
    intro h2 m hspan
    obtain ⟨hmiss, hrat, -⟩ := hB h2
    have hexp : gapExpectedSpec ts interval = (ts.length : Int) + (m : Int) := by
      rw [gapExpectedSpec, hspan, Int.mul_fdiv_cancel _ (by omega)]
      omega
    have hmval : gapMissingSpec ts interval = (m : Int) := by
      rw [gapMissingSpec, hexp]
      omega
    refine ⟨by rw [hmiss, hmval], ?_⟩
    rw [hrat, gapRatioSpec, if_pos (by rw [hexp]; omega), hmval, hexp]
    have hLne : ((ts.length : Int) : ℚ) + (m : ℚ) ≠ 0 := by
      have : (0:ℚ) < ((ts.length : Int) : ℚ) := by
        push_cast
        exact_mod_cast Nat.lt_of_lt_of_le (by omega) h2
      have hmn : (0:ℚ) ≤ (m : ℚ) := by positivity
      linarith
    push_cast
    ring_nf

/-! ## C7: check_zero_streak -/

/-- Largest run length among (start, end-exclusive) pairs, 0 when none
(matching `np.max(zero_ends - zero_starts)` with the empty case). -/
def maxRunLen (rs : List (Nat × Nat)) : Nat :=
  (rs.map fun p => p.2 - p.1).foldr max 0

/-- Specification-side notion: positions `i, ..., i+n-1` of `vs` exist and
all hold exact zeros. -/
def zeroRunAt (vs : List ℚ) (i n : Nat) : Prop :=
  i + n ≤ vs.length ∧ ∀ k < n, vs.getD (i + k) 0 = 0

/-- Number of leading zeros of a list. -/
def leadZeros : List ℚ → Nat
  | [] => 0
  | v :: r => if v = 0 then leadZeros r + 1 else 0

lemma maxRunLen_cons (p : Nat × Nat) (rs : List (Nat × Nat)) :
    maxRunLen (p :: rs) = max (p.2 - p.1) (maxRunLen rs) := rfl

/-- Shifting the position counter shifts every reported run. -/
lemma zeroRunsAux_shift (vs : List ℚ) (d : Nat) :
    ∀ (i : Nat) (acc : Option Nat),
      zeroRunsAux vs (i + d) (acc.map fun s => s + d) =
        (zeroRunsAux vs i acc).map fun p => (p.1 + d, p.2 + d) := by
  induction vs with
  | nil =>
    intro i acc
    cases acc <;> simp [zeroRunsAux]
  | cons v rest ih =>
    intro i acc
    cases acc with
    | none =>
      by_cases hv : v = 0
      · simp only [Option.map_none', zeroRunsAux, if_pos hv]
        have e : i + d + 1 = (i + 1) + d := by omega
        rw [e, show some (i + d) = Option.map (fun s => s + d) (some i) from rfl]
        exact ih (i + 1) (some i)
      · simp only [Option.map_none', zeroRunsAux, if_neg hv]
        have e : i + d + 1 = (i + 1) + d := by omega
        rw [e, show (none : Option Nat) = Option.map (fun s => s + d) none from rfl]
        exact ih (i + 1) none
    | some s =>
      by_cases hv : v = 0
      · simp only [Option.map_some', zeroRunsAux, if_pos hv]
        have e : i + d + 1 = (i + 1) + d := by omega
        rw [e, show some (s + d) = Option.map (fun x => x + d) (some s) from rfl]
        exact ih (i + 1) (some s)
      · simp only [Option.map_some', zeroRunsAux, if_neg hv, List.map_cons]
        have e : i + d + 1 = (i + 1) + d := by omega
        rw [e, show (none : Option Nat) = Option.map (fun x => x + d) none from rfl]
        exact congrArg _ (ih (i + 1) none)

/-- The largest run length does not depend on the position counter. -/
lemma maxRunLen_shift (vs : List ℚ) (i : Nat) :
    maxRunLen (zeroRunsAux vs i none) = maxRunLen (zeroRunsAux vs 0 none) := by
  have h := zeroRunsAux_shift vs i 0 none
  rw [Nat.zero_add] at h
  simp only [Option.map_none'] at h
  rw [h, maxRunLen, maxRunLen, List.map_map]
  refine congrArg (List.foldr max 0) (List.map_congr_left ?_)
  intro p _
  simp only [Function.comp_apply]
  omega

/-- Recursion for the largest run length reported from an open run. -/
lemma zeroRunsAux_open (vs : List ℚ) :
    ∀ i s, s ≤ i →
      maxRunLen (zeroRunsAux vs i (some s)) =
        max ((i - s) + leadZeros vs)
          (maxRunLen (zeroRunsAux (vs.drop (leadZeros vs + 1)) 0 none)) := by
  induction vs with
  | nil =>
    intro i s _
    simp [zeroRunsAux, leadZeros, maxRunLen]
  | cons v rest ih =>
    intro i s hs
    by_cases hv : v = 0
    · simp only [zeroRunsAux, if_pos hv, leadZeros]
      rw [ih (i + 1) s (by omega), List.drop_succ_cons]
      congr 1
      omega
    · simp only [zeroRunsAux, if_neg hv, leadZeros]
      rw [maxRunLen_cons, maxRunLen_shift rest (i + 1)]
      simp only [Nat.zero_add, List.drop_succ_cons, List.drop_zero, Nat.add_zero]

/-- The largest zero-run length of a list splits at its leading zeros. -/
lemma maxRunLen_zeroRuns_eq (vs : List ℚ) :
    maxRunLen (zeroRuns vs) =
      max (leadZeros vs) (maxRunLen (zeroRuns (vs.drop (leadZeros vs + 1)))) := by
  cases vs with
  | nil => simp [zeroRuns, zeroRunsAux, leadZeros, maxRunLen]
  | cons v rest =>
    by_cases hv : v = 0
    · show maxRunLen (zeroRunsAux (v :: rest) 0 none) = _
      simp only [zeroRunsAux, if_pos hv, leadZeros]
      rw [zeroRunsAux_open rest 1 0 (by omega), List.drop_succ_cons]
      show max ((1 - 0) + leadZeros rest)
        (maxRunLen (zeroRuns (List.drop (leadZeros rest + 1) rest))) = _
      omega
    · show maxRunLen (zeroRunsAux (v :: rest) 0 none) = _
      simp only [zeroRunsAux, if_neg hv, leadZeros]
      rw [maxRunLen_shift rest 1]
      show maxRunLen (zeroRuns rest) = _
      have hdrop : List.drop (0 + 1) (v :: rest) = rest := rfl
      rw [hdrop]
      omega

/-- Recursion for the largest zero run at a zero head. -/
lemma maxRunLen_cons_zero (rest : List ℚ) :
    maxRunLen (zeroRuns ((0 : ℚ) :: rest)) =
      max (leadZeros rest + 1) (maxRunLen (zeroRuns rest)) := by
  rw [maxRunLen_zeroRuns_eq ((0 : ℚ) :: rest), maxRunLen_zeroRuns_eq rest]
  have hlz : leadZeros ((0 : ℚ) :: rest) = leadZeros rest + 1 := by
    simp [leadZeros]
  rw [hlz, List.drop_succ_cons]
  omega

/-- Recursion for the largest zero run at a nonzero head. -/
lemma maxRunLen_cons_nonzero {v : ℚ} (hv : v ≠ 0) (rest : List ℚ) :
    maxRunLen (zeroRuns (v :: rest)) = maxRunLen (zeroRuns rest) := by
  show maxRunLen (zeroRunsAux (v :: rest) 0 none) = _
  simp only [zeroRunsAux, if_neg hv]
  exact maxRunLen_shift rest 1

lemma leadZeros_le (vs : List ℚ) : leadZeros vs ≤ vs.length := by
  induction vs with
  | nil => simp [leadZeros]
  | cons v rest ih =>
    simp only [leadZeros, List.length_cons]
    split <;> omega

lemma leadZeros_zero (vs : List ℚ) : ∀ k < leadZeros vs, vs.getD k 0 = 0 := by
  induction vs with
  | nil => simp [leadZeros]
  | cons v rest ih =>
    intro k hk
    simp only [leadZeros] at hk
    by_cases hv : v = 0
    · rw [if_pos hv] at hk
      cases k with
      | zero => simpa [List.getD_cons_zero] using hv
      | succ j => rw [List.getD_cons_succ]; exact ih j (by omega)
    · rw [if_neg hv] at hk
      omega

lemma le_leadZeros (vs : List ℚ) (n : Nat) (hlen : n ≤ vs.length)
    (hz : ∀ k < n, vs.getD k 0 = 0) : n ≤ leadZeros vs := by
  induction vs generalizing n with
  | nil =>
    simp only [List.length_nil, Nat.le_zero] at hlen
    simp [leadZeros, hlen]
  | cons v rest ih =>
    cases n with
    | zero => omega
    | succ m =>
      have hv : v = 0 := by simpa [List.getD_cons_zero] using hz 0 (by omega)
      simp only [leadZeros, if_pos hv]
      have : m ≤ leadZeros rest := by
        apply ih
        · simp only [List.length_cons] at hlen; omega
        · intro k hk
          have := hz (k + 1) (by omega)
          rwa [List.getD_cons_succ] at this
      omega

/-- The computed largest zero-run length is achieved by an actual run. -/
lemma exists_zeroRunAt (vs : List ℚ) :
    ∃ i, zeroRunAt vs i (maxRunLen (zeroRuns vs)) := by
  induction vs with
  | nil => exact ⟨0, by simp [zeroRunAt, zeroRuns, zeroRunsAux, maxRunLen]⟩
  | cons v rest ih =>
    by_cases hv : v = 0
    · subst hv
      rw [maxRunLen_cons_zero rest]
      rcases le_or_lt (maxRunLen (zeroRuns rest)) (leadZeros rest + 1) with hle | hlt
      · rw [Nat.max_eq_left hle]
        refine ⟨0, ?_, ?_⟩
        · have := leadZeros_le rest
          simp only [List.length_cons]
          omega
        · intro k hk
          cases k with
          | zero => simp [List.getD_cons_zero]
          | succ j =>
            rw [Nat.zero_add, List.getD_cons_succ]
            exact leadZeros_zero rest j (by omega)
      · rw [Nat.max_eq_right (le_of_lt hlt)]
        obtain ⟨i, hi1, hi2⟩ := ih
        refine ⟨i + 1, ?_, ?_⟩
        · simp only [List.length_cons]; omega
        · intro k hk
          rw [show i + 1 + k = i + k + 1 from by omega, List.getD_cons_succ]
          exact hi2 k hk
    · rw [maxRunLen_cons_nonzero hv]
      obtain ⟨i, hi1, hi2⟩ := ih
      refine ⟨i + 1, ?_, ?_⟩
      · simp only [List.length_cons]; omega
      · intro k hk
        rw [show i + 1 + k = i + k + 1 from by omega, List.getD_cons_succ]
        exact hi2 k hk

/-- Every zero run is bounded by the computed largest run length. -/
lemma zeroRunAt_le (vs : List ℚ) :
    ∀ i n, zeroRunAt vs i n → n ≤ maxRunLen (zeroRuns vs) := by
  induction vs with
  | nil =>
    intro i n h
    have h1 := h.1
    simp only [List.length_nil] at h1
    omega
  | cons v rest ih =>
    intro i n h
    cases i with
    | succ j =>
      have hrest : zeroRunAt rest j n := by
        refine ⟨?_, ?_⟩
        · have := h.1; simp only [List.length_cons] at this; omega
        · intro k hk
          have := h.2 k hk
          rwa [show j + 1 + k = j + k + 1 from by omega, List.getD_cons_succ] at this
      have hle := ih j n hrest
      by_cases hv : v = 0
      · subst hv; rw [maxRunLen_cons_zero]; omega
      · rw [maxRunLen_cons_nonzero hv]; exact hle
    | zero =>
      cases n with
      | zero => exact Nat.zero_le _
      | succ m =>
        have hv : v = 0 := by
          have := h.2 0 (by omega)
          simpa [List.getD_cons_zero] using this
        subst hv
        rw [maxRunLen_cons_zero]
        have hm : m ≤ leadZeros rest := by
          apply le_leadZeros
          · have := h.1; simp only [List.length_cons] at this; omega
          · intro k hk
            have := h.2 (k + 1) (by omega)
            rwa [show 0 + (k + 1) = k + 1 from by omega, List.getD_cons_succ] at this
        omega

/-- A nonzero fold-max over naturals is attained by a member. -/
lemma foldr_max_mem (l : List Nat) : l.foldr max 0 = 0 ∨ l.foldr max 0 ∈ l := by
  induction l with
  | nil => left; rfl
  | cons x xs ih =>
    rcases max_choice x (xs.foldr max 0) with h | h
    · right
      rw [List.foldr_cons, h]
      exact List.mem_cons_self x xs
    · rw [List.foldr_cons, h]
      rcases ih with h0 | hm
      · left; exact h0
      · right; exact List.mem_cons_of_mem x hm

/-- Unfolding of `check_zero_streak` on non-empty input. -/
lemma check_zero_streak_eq (vs : List ℚ) (thr : Nat) (nm : String)
    (hne : vs.isEmpty = false) :
    check_zero_streak vs thr nm =
      if thr < maxRunLen (zeroRuns vs) then
        ⟨false, maxRunLen (zeroRuns vs),
         some ((((zeroRuns vs).find? fun p =>
             decide (p.2 - p.1 = maxRunLen (zeroRuns vs))).getD (0, 0)).1,
           (((zeroRuns vs).find? fun p =>
             decide (p.2 - p.1 = maxRunLen (zeroRuns vs))).getD (0, 0)).2 - 1),
         [(nm ++ "_max_zero_streak",
           .record [("max_streak", (maxRunLen (zeroRuns vs) : ℚ)),
                    ("max_streak_start_index",
                     (((((zeroRuns vs).find? fun p =>
                       decide (p.2 - p.1 = maxRunLen (zeroRuns vs))).getD (0, 0)).1 : Nat) : ℚ)),
                    ("max_streak_end_index",
                     (((((zeroRuns vs).find? fun p =>
                       decide (p.2 - p.1 = maxRunLen (zeroRuns vs))).getD (0, 0)).2 - 1 : Nat) : ℚ)),
                    ("threshold", (thr : ℚ))])]⟩
      else ⟨true, maxRunLen (zeroRuns vs), none,
            [(nm ++ "_max_zero_streak", .num (maxRunLen (zeroRuns vs)))]⟩ := by
  unfold check_zero_streak
  rw [hne]
  rfl

/-- C7. `check_zero_streak` returns the length of the longest contiguous run
of exact zeros (some run of that length exists and every zero run is bounded
by it), passes exactly when that length is at most the threshold, on failure
records a (start, inclusive end) pair spanning the returned length, and on
the concrete input `[0,0,0,5,0,0]` with threshold 2 it fails reporting the
run of length 3 at indices [0,2]. -/
theorem check_zero_streak_spec (vs : List ℚ) (thr : Nat) (nm : String) :
    ((check_zero_streak vs thr nm).passed = true ↔
      (check_zero_streak vs thr nm).streak ≤ thr) ∧
    (∃ i, zeroRunAt vs i (check_zero_streak vs thr nm).streak) ∧
    (∀ i n, zeroRunAt vs i n → n ≤ (check_zero_streak vs thr nm).streak) ∧
    (thr < (check_zero_streak vs thr nm).streak →
      ∃ s e, (check_zero_streak vs thr nm).detail = some (s, e) ∧
        s + (check_zero_streak vs thr nm).streak = e + 1) ∧
    check_zero_streak [0, 0, 0, 5, 0, 0] 2 "volume" =
      ⟨false, 3, some (0, 2),
       [("volume_max_zero_streak",
         .record [("max_streak", 3), ("max_streak_start_index", 0),
                  ("max_streak_end_index", 2), ("threshold", 2)])]⟩ := by
  have hconc : check_zero_streak [0, 0, 0, 5, 0, 0] 2 "volume" =
      ⟨false, 3, some (0, 2),
       [("volume_max_zero_streak",
         .record [("max_streak", 3), ("max_streak_start_index", 0),
                  ("max_streak_end_index", 2), ("threshold", 2)])]⟩ := by decide
  cases hb : vs.isEmpty with
  | true =>
    have hnil : vs = [] := List.isEmpty_iff.mp hb
    subst hnil
    have h0 : check_zero_streak ([] : List ℚ) thr nm = ⟨true, 0, none, []⟩ := rfl
    rw [h0]
    refine ⟨by simp, ⟨0, ?_⟩, ?_, ?_, hconc⟩
    · exact ⟨by simp, fun k hk => absurd hk (Nat.not_lt_zero k)⟩
    · intro i n h
      have h1 := h.1
      simp only [List.length_nil] at h1
      omega
    · intro h
      exact absurd h (Nat.not_lt_zero thr)
  | false =>
    rw [check_zero_streak_eq vs thr nm hb]
    set M := maxRunLen (zeroRuns vs) with hM
    by_cases hth : thr < M
    · rw [if_pos hth]
      have hMpos : 0 < M := by omega
      obtain ⟨p, hp, hfp⟩ : ∃ p ∈ zeroRuns vs, p.2 - p.1 = M := by
        rcases foldr_max_mem ((zeroRuns vs).map fun p => p.2 - p.1) with h0 | hm
        · exfalso
          have : M = 0 := by rw [hM, maxRunLen]; exact h0
          omega
        · obtain ⟨p, hp, hfp⟩ := List.mem_map.mp hm
          refine ⟨p, hp, ?_⟩
          rw [hM, maxRunLen]
          exact hfp
      have hsome : ((zeroRuns vs).find? fun x => decide (x.2 - x.1 = M)).isSome := by
        rw [List.find?_isSome]
        exact ⟨p, hp, decide_eq_true hfp⟩
      obtain ⟨q, hq⟩ := Option.isSome_iff_exists.mp hsome
      have hdq := List.find?_some hq
      have hqlen : q.2 - q.1 = M := of_decide_eq_true (by simpa using hdq)
      rw [hq]
      simp only [Option.getD_some]
      refine ⟨?_, exists_zeroRunAt vs, fun i n h => zeroRunAt_le vs i n h, ?_, hconc⟩
      · constructor
        · intro hfalse
          exact absurd hfalse (by simp)
        · intro hle
          have h3 : M ≤ thr := hle
          exact absurd h3 (by omega)
      · intro _
        refine ⟨q.1, q.2 - 1, rfl, ?_⟩
        show q.1 + M = (q.2 - 1) + 1
        omega
    · rw [if_neg hth]
      refine ⟨?_, exists_zeroRunAt vs, fun i n h => zeroRunAt_le vs i n h, ?_, hconc⟩
      · constructor
        · intro _
          show M ≤ thr
          omega
        · intro _
          rfl
      · intro h
        have h2 : thr < M := h
        exact absurd h2 hth

/-! ## C4: registry writes of the validator checks -/

/-- C4 (amended). Each validator check writes one entry into the shared
results dict under its `{name}_{check}` key, EXCEPT on the trivial
early-return paths: `check_monotonic` on an empty array,
`check_gap_ratio` on fewer than 2 samples, and `check_zero_streak` on an
empty array return without writing anything. -/
theorem validator_writes_registry (ts ds gts : List Int) (interval : Int)
    (maxr : ℚ) (sp vals : List ℚ) (thr : Nat) (nm : String) :
    (ts ≠ [] → ∃ v, (nm ++ "_monotonic", v) ∈ (check_monotonic ts nm).writes) ∧
    (∃ v, (nm ++ "_duplicates", v) ∈ (check_duplicates ds nm).writes) ∧
    (2 ≤ gts.length →
      ∃ v, (nm ++ "_gap_ratio", v) ∈ (gapRatioCheck gts interval maxr nm).writes) ∧
    (∃ v, (nm ++ "_negative_spread", v) ∈ (check_spread_validity sp nm).writes) ∧
    (vals ≠ [] →
      ∃ v, (nm ++ "_max_zero_streak", v) ∈ (check_zero_streak vals thr nm).writes) ∧
    (check_monotonic [] nm).writes = [] ∧
    (gts.length < 2 → (gapRatioCheck gts interval maxr nm).writes = []) ∧
    (check_zero_streak [] thr nm).writes = [] := by
  refine ⟨?_, ?_, ?_, ?_, ?_, rfl, ?_, rfl⟩
  · intro hne
    have hemp : ts.isEmpty = false := by
      cases hb : ts.isEmpty with
      | true => exact absurd (List.isEmpty_iff.mp hb) hne
      | false => rfl
    cases hh : ((List.range (List.zipWith (fun a b : Int => b - a) ts ts.tail).length).filter
        fun i => decide ((List.zipWith (fun a b : Int => b - a) ts ts.tail).getD i 0 ≤ 0)).head? with
    | some k =>
      refine ⟨.bool false, ?_⟩
      simp only [check_monotonic, hemp, Bool.false_eq_true, if_false, hh]
      exact List.mem_cons_self _ _
    | none =>
      refine ⟨.bool true, ?_⟩
      simp only [check_monotonic, hemp, Bool.false_eq_true, if_false, hh]
      exact List.mem_cons_self _ _
  · by_cases hd : 0 < ds.length - (npUnique ds).length
    · simp only [check_duplicates, if_pos hd]
      exact ⟨_, List.mem_cons_self _ _⟩
    · simp only [check_duplicates, if_neg hd]
      exact ⟨_, List.mem_cons_self _ _⟩
  · intro h2
    have h2n : ¬ gts.length < 2 := by omega
    simp only [gapRatioCheck, if_neg h2n]
    split <;> split <;> exact ⟨_, List.mem_cons_self _ _⟩
  · cases hh : ((List.range sp.length).filter fun i => decide (sp.getD i 0 < 0)).head? with
    | some k =>
      simp only [check_spread_validity, hh]
      exact ⟨_, List.mem_cons_self _ _⟩
    | none =>
      simp only [check_spread_validity, hh]
      exact ⟨_, List.mem_cons_self _ _⟩
  · intro hne
    have hemp : vals.isEmpty = false := by
      cases hb : vals.isEmpty with
      | true => exact absurd (List.isEmpty_iff.mp hb) hne
      | false => rfl
    rw [check_zero_streak_eq vals thr nm hemp]
    split
    · exact ⟨_, List.mem_cons_self _ _⟩
    · exact ⟨_, List.mem_cons_self _ _⟩
  · intro h2
    simp only [gapRatioCheck, if_pos h2]

/-- C4 counterexample: on an empty array `check_monotonic` returns without
writing any entry into the shared results dict (and likewise
`check_gap_ratio` on a 1-sample array and `check_zero_streak` on an empty
array), refuting the claim that every check always writes an entry. -/
theorem validator_writes_registry_cex :
    (check_monotonic [] "data").writes = [] ∧
    (gapRatioCheck [7] 60 0 "data").writes = [] ∧
    (check_zero_streak [] 120 "data").writes = [] :=
  ⟨rfl, rfl, rfl⟩

/-! ## TimeSeriesStore: hdf5_writer.py -/

/-- An input tick record as passed to the writer: a dict with required
`time`, `time_msc`, `bid`, `ask` and optional `last`, `volume`, `flags`
(hdf5_writer.py 216-227 reads them with `.get` defaults). -/
structure TickDict where
  time : Int
  time_msc : Int
  bid : ℚ
  ask : ℚ
  last : Option ℚ
  volume : Option Int
  flags : Option Int
deriving DecidableEq

/-- A stored tick row of the `ticks/data` dataset (TICK_DTYPE). -/
structure TickRec where
  time : Int
  time_msc : Int
  bid : ℚ
  ask : ℚ
  last : ℚ
  volume : Int
  flags : Int
deriving DecidableEq

/-- One tuple of `_convert_ticks_to_array`: missing optional fields default
to 0 (`tick.get('last', 0.0)` etc.). -/
def convertTick (t : TickDict) : TickRec :=
  ⟨t.time, t.time_msc, t.bid, t.ask, t.last.getD 0, t.volume.getD 0, t.flags.getD 0⟩

/-- Embedding of `HDF5Writer._convert_ticks_to_array`. -/
def convert_ticks_to_array (data : List TickDict) : List TickRec :=
  data.map convertTick

/-- The observable state of the HDF5 container file: whether the file
exists on disk, the `ticks/data` dataset (none = absent), the per-timeframe
`{TF}/data` bar datasets, and the `metadata` blob.  Dataset contents are
modelled as row lists (physical chunking/layout is not modelled). -/
structure HFile where
  onDisk : Bool
  ticks : Option (List TickRec)
  bars : List (String × List (List ℚ))
  metadata : Option String
deriving DecidableEq

/-- Embedding of `HDF5Writer.append_tick_data` (hdf5_writer.py 160-201).
An empty batch returns before the file is opened.  Otherwise
`h5py.File(path, "a")` opens or creates the file; if `ticks/data` is absent
it is created (growable, sized to the chunk), else it is resized by the
chunk length and the new rows written at the tail. -/
def append_tick_data (f : HFile) (data : List TickDict) : HFile :=
  if data.isEmpty then f
  else
    let newArr := convert_ticks_to_array data
    match f.ticks with
    | none => { f with onDisk := true, ticks := some newArr }
    | some old => { f with onDisk := true, ticks := some (old ++ newArr) }

/-- Embedding of `HDF5Writer.write_tick_data` (hdf5_writer.py 108-137).
An empty batch returns before the file is opened; otherwise any existing
`ticks/data` dataset is deleted and a fresh one holding exactly the batch
is created. -/
def write_tick_data (f : HFile) (data : List TickDict) : HFile :=
  if data.isEmpty then f
  else { f with onDisk := true, ticks := some (convert_ticks_to_array data) }

/-- C2. Starting from a container without a `ticks/data` dataset, appending
a non-empty batch A and then a non-empty batch B yields the same container
state as one whole-batch replace write of `A ++ B`: the dataset has
`|A| + |B|` rows, A's rows at indices `0..|A|-1` and B's rows after them. -/
theorem append_append_eq_write_tick (f : HFile) (A B : List TickDict)
    (hf : f.ticks = none) (hA : A ≠ []) (hB : B ≠ []) :
    append_tick_data (append_tick_data f A) B = write_tick_data f (A ++ B) ∧
    (append_tick_data (append_tick_data f A) B).ticks =
      some (convert_ticks_to_array A ++ convert_ticks_to_array B) ∧
    (((append_tick_data (append_tick_data f A) B).ticks.getD []).length =
      A.length + B.length) ∧
    (∀ i, i < A.length →
      ((append_tick_data (append_tick_data f A) B).ticks.getD [])[i]? =
        (A[i]?).map convertTick) ∧
    (∀ j, j < B.length →
      ((append_tick_data (append_tick_data f A) B).ticks.getD [])[A.length + j]? =
        (B[j]?).map convertTick) := by
  have hAe : A.isEmpty = false := by
    cases hb : A.isEmpty with
    | true => exact absurd (List.isEmpty_iff.mp hb) hA
    | false => rfl
  have hBe : B.isEmpty = false := by
    cases hb : B.isEmpty with
    | true => exact absurd (List.isEmpty_iff.mp hb) hB
    | false => rfl
  have hABe : (A ++ B).isEmpty = false := by
    cases hb : (A ++ B).isEmpty with
    | true =>
      have := List.isEmpty_iff.mp hb
      rcases List.append_eq_nil.mp this with ⟨h1, -⟩
      exact absurd h1 hA
    | false => rfl
  have h1 : append_tick_data f A = { f with onDisk := true, ticks := some (convert_ticks_to_array A) } := by
    simp only [append_tick_data, hAe, Bool.false_eq_true, if_false, hf]
  have h2 : append_tick_data (append_tick_data f A) B = { f with onDisk := true, ticks := some (convert_ticks_to_array A ++ convert_ticks_to_array B) } := by
    rw [h1]
    simp only [append_tick_data, hBe, Bool.false_eq_true, if_false]
  have h3 : write_tick_data f (A ++ B) = { f with onDisk := true, ticks := some (convert_ticks_to_array A ++ convert_ticks_to_array B) } := by
    simp only [write_tick_data, hABe, Bool.false_eq_true, if_false,
      convert_ticks_to_array, List.map_append]
  refine ⟨by rw [h2, h3], by rw [h2], ?_, ?_, ?_⟩
  · rw [h2]
    simp [convert_ticks_to_array]
  · intro i hi
    rw [h2]
    simp only [Option.getD_some]
    rw [List.getElem?_append_left (by simp [convert_ticks_to_array]; omega)]
    simp [convert_ticks_to_array, List.getElem?_map]
  · intro j hj
    rw [h2]
    simp only [Option.getD_some]
    rw [List.getElem?_append_right (by simp [convert_ticks_to_array])]
    simp [convert_ticks_to_array, List.getElem?_map]

/-- C2 witness at a concrete container and concrete one-row batches. -/
theorem append_append_eq_write_tick_witness :
    append_tick_data (append_tick_data ⟨false, none, [], none⟩
        [⟨1, 1000, 2, 3, none, none, none⟩])
        [⟨2, 2000, 4, 5, some 6, some 7, some 8⟩] =
      write_tick_data ⟨false, none, [], none⟩
        ([⟨1, 1000, 2, 3, none, none, none⟩] ++
         [⟨2, 2000, 4, 5, some 6, some 7, some 8⟩]) ∧
    (append_tick_data (append_tick_data ⟨false, none, [], none⟩
        [⟨1, 1000, 2, 3, none, none, none⟩])
        [⟨2, 2000, 4, 5, some 6, some 7, some 8⟩]).ticks =
      some (convert_ticks_to_array [⟨1, 1000, 2, 3, none, none, none⟩] ++
            convert_ticks_to_array [⟨2, 2000, 4, 5, some 6, some 7, some 8⟩]) :=
  ⟨(append_append_eq_write_tick ⟨false, none, [], none⟩ _ _ rfl (by decide)
      (by decide)).1,
   (append_append_eq_write_tick ⟨false, none, [], none⟩ _ _ rfl (by decide)
      (by decide)).2.1⟩

/-- C10. Calling the tick append or the whole-batch tick write with an empty
batch is a no-op: the container file is not opened or created, no dataset is
created and every existing dataset is left unchanged (the state is returned
exactly as it was). -/
theorem empty_tick_batch_noop (f : HFile) :
    append_tick_data f [] = f ∧ write_tick_data f [] = f :=
  ⟨rfl, rfl⟩

/-! ## TimeGridAligner: timestamp_aligner.py -/

/-- A bar row: its epoch-second timestamp and the remaining 7 columns
(open, high, low, close, tick_volume, spread, real_volume) as one payload
list. -/
structure BarRow where
  time : Int
  vals : List ℚ
deriving DecidableEq

/-- An aligned output row: the stamped time (always a reference-grid
timestamp after alignment) and the payload carried over from the secondary
series; `none` models the NaN payload that `reindex(..., method='ffill')`
produces for grid points preceding the secondary series' first timestamp. -/
structure AlignedRow where
  time : Int
  vals : Option (List ℚ)
deriving DecidableEq

/-- The as-of row of `S` at time `t`: the last row with timestamp at most
`t`.  For a series with strictly increasing timestamps this is exactly what
`DataFrame.reindex(m1_times, method='ffill')` selects at grid point `t`
(timestamp_aligner.py 120). -/
def asofRow (s : List BarRow) (t : Int) : Option BarRow :=
  (s.filter fun r => decide (r.time ≤ t)).getLast?

/-- Embedding of `TimestampAligner._align_single_tf` (timestamp_aligner.py
87-138): forward-fill the secondary rows onto the reference timestamps,
then overwrite the time column with the reference timestamps (the
seconds-to-datetime64-and-back conversion of lines 105-123 is the
identity on epoch seconds and is dropped). -/
def align_single_tf (tf : List BarRow) (m1Times : List Int) : List AlignedRow :=
  m1Times.map fun t => ⟨t, (asofRow tf t).map BarRow.vals⟩

/-- The aligned entries for the non-reference timeframes, in the fixed
iteration order of align_to_m1 (timestamp_aligner.py 68-77); a timeframe
missing from the input is skipped with a warning. -/
def alignTFList (raw : List (String × List BarRow)) (m1Times : List Int) :
    List (String × List AlignedRow) :=
  ["M5", "M15", "H1", "H4"].filterMap fun tf =>
    match raw.lookup tf with
    | none => none
    | some arr => some (tf, align_single_tf arr m1Times)

/-- Embedding of `TimestampAligner.align_to_m1` (timestamp_aligner.py
35-85): a missing reference series raises ValueError; otherwise M1 is
copied unchanged (its rows trivially carry their payload) and every other
present timeframe is aligned to M1's timestamps. -/
def align_to_m1 (raw : List (String × List BarRow)) :
    Except String (List (String × List AlignedRow)) :=
  match raw.lookup "M1" with
  | none => .error "M1データが必要です"
  | some m1 =>
      .ok (("M1", m1.map fun r => ⟨r.time, some r.vals⟩) ::
        alignTFList raw (m1.map BarRow.time))

/-- In a list sorted by strictly increasing time, the last element has the
largest time. -/
lemma getLast?_time_max :
    ∀ l : List BarRow, (l.Pairwise fun a b => a.time < b.time) →
      ∀ r : BarRow, l.getLast? = some r → ∀ q ∈ l, q.time ≤ r.time := by
  intro l
  induction l with
  | nil =>
    intro _ r hr
    simp at hr
  | cons x xs ih =>
    intro hp r hr q hq
    cases xs with
    | nil =>
      have hx : x = r := by simpa using hr
      rcases List.mem_singleton.mp hq with rfl
      rw [hx]
    | cons y ys =>
      rw [List.getLast?_cons_cons] at hr
      have hmem : r ∈ y :: ys := List.mem_of_mem_getLast? hr
      rcases List.mem_cons.mp hq with rfl | hq2
      · exact le_of_lt ((List.pairwise_cons.mp hp).1 r hmem)
      · exact ih (List.pairwise_cons.mp hp).2 r hr q hq2

/-- The as-of join at a time at or after the series start returns the most
recent row with timestamp at most `t`. -/
lemma asofRow_spec (S : List BarRow) (t : Int)
    (hsort : S.Pairwise fun a b => a.time < b.time)
    (hne : S ≠ []) (hfirst : (S.headD ⟨0, []⟩).time ≤ t) :
    ∃ r, asofRow S t = some r ∧ r ∈ S ∧ r.time ≤ t ∧
      ∀ q ∈ S, q.time ≤ t → q.time ≤ r.time := by
  obtain ⟨h0, rest, rfl⟩ : ∃ h0 rest, S = h0 :: rest := by
    cases S with
    | nil => exact absurd rfl hne
    | cons a l => exact ⟨a, l, rfl⟩
  have hh0t : h0.time ≤ t := by simpa using hfirst
  have hh0 : h0 ∈ (h0 :: rest).filter fun r => decide (r.time ≤ t) :=
    List.mem_filter.mpr ⟨List.mem_cons_self _ _, decide_eq_true hh0t⟩
  have hFne : ((h0 :: rest).filter fun r => decide (r.time ≤ t)) ≠ [] :=
    List.ne_nil_of_mem hh0
  obtain ⟨r, hr⟩ : ∃ r, ((h0 :: rest).filter fun x => decide (x.time ≤ t)).getLast? = some r :=
    ⟨_, List.getLast?_eq_getLast _ hFne⟩
  have hrmem := List.mem_of_mem_getLast? hr
  have hrS := (List.mem_filter.mp hrmem).1
  have hrt : r.time ≤ t := of_decide_eq_true (List.mem_filter.mp hrmem).2
  refine ⟨r, hr, hrS, hrt, ?_⟩
  intro q hq hqt
  have hqF : q ∈ (h0 :: rest).filter fun x => decide (x.time ≤ t) :=
    List.mem_filter.mpr ⟨hq, decide_eq_true hqt⟩
  exact getLast?_time_max _ (hsort.filter _) r hr q hqF

/-- Lookup in the aligned timeframe entries. -/
lemma lookup_filterMap_align (tfs : List String)
    (raw : List (String × List BarRow)) (m1Times : List Int) (tf : String)
    (S : List BarRow) (hnd : tfs.Nodup) (hmem : tf ∈ tfs)
    (hS : raw.lookup tf = some S) :
    (tfs.filterMap fun t =>
      match raw.lookup t with
      | none => none
      | some arr => some (t, align_single_tf arr m1Times)).lookup tf =
    some (align_single_tf S m1Times) := by
  induction tfs with
  | nil => simp at hmem
  | cons t rest ih =>
    rcases List.mem_cons.mp hmem with rfl | hmem2
    · simp only [List.filterMap_cons, hS]
      simp [List.lookup]
    · have hne : tf ≠ t := by
        rintro rfl
        exact (List.nodup_cons.mp hnd).1 hmem2
      simp only [List.filterMap_cons]
      cases hlk : raw.lookup t with
      | none => exact ih (List.nodup_cons.mp hnd).2 hmem2
      | some arr =>
        have hbeq : (tf == t) = false := beq_eq_false_iff_ne.mpr hne
        simp only [List.lookup, hbeq]
        exact ih (List.nodup_cons.mp hnd).2 hmem2

/-- C1. When the input holds a non-empty reference series under M1 and a
non-empty, strictly increasing secondary series under one of the aligned
timeframe keys, alignment succeeds and that timeframe's output has exactly
one row per M1 row, each stamped with the M1 grid timestamp; at every grid
point at or after the secondary series' first timestamp the output row
carries the payload of the most recent secondary row with timestamp at most
that grid point. -/
theorem align_to_m1_asof (raw : List (String × List BarRow)) (tfName : String)
    (m1 S : List BarRow)
    (hm1 : raw.lookup "M1" = some m1) (hm1ne : m1 ≠ [])
    (htf : tfName ∈ ["M5", "M15", "H1", "H4"])
    (hS : raw.lookup tfName = some S) (hSne : S ≠ [])
    (hsort : S.Pairwise fun a b => a.time < b.time) :
    ∃ res out, align_to_m1 raw = .ok res ∧ res.lookup tfName = some out ∧
      out.length = m1.length ∧
      (∀ i, i < m1.length →
        (out.getD i ⟨0, none⟩).time = (m1.getD i ⟨0, []⟩).time) ∧
      (∀ i, i < m1.length →
        (S.headD ⟨0, []⟩).time ≤ (m1.getD i ⟨0, []⟩).time →
        ∃ r, r ∈ S ∧ r.time ≤ (m1.getD i ⟨0, []⟩).time ∧
          (∀ q ∈ S, q.time ≤ (m1.getD i ⟨0, []⟩).time → q.time ≤ r.time) ∧
          out.getD i ⟨0, none⟩ = ⟨(m1.getD i ⟨0, []⟩).time, some r.vals⟩) := by
  have hneM1 : tfName ≠ "M1" := by
    simp only [List.mem_cons, List.not_mem_nil, or_false] at htf
    rcases htf with rfl | rfl | rfl | rfl
    all_goals decide
  have htf2 : tfName ∈ ["M5", "M15", "H1", "H4"] := htf
  refine ⟨("M1", m1.map fun r => ⟨r.time, some r.vals⟩) ::
      alignTFList raw (m1.map BarRow.time),
    align_single_tf S (m1.map BarRow.time), ?_, ?_, ?_, ?_, ?_⟩
  · simp only [align_to_m1, hm1]
  · have hbeq : (tfName == "M1") = false := beq_eq_false_iff_ne.mpr hneM1
    simp only [List.lookup, hbeq]
    exact lookup_filterMap_align _ raw _ tfName S (by decide) htf2 hS
  · simp [align_single_tf]
  · intro i hi
    have hiT : i < (m1.map BarRow.time).length := by simpa using hi
    have hiA : i < (align_single_tf S (m1.map BarRow.time)).length := by
      simpa [align_single_tf] using hi
    rw [List.getD_eq_getElem _ _ hiA, List.getD_eq_getElem _ _ hi]
    simp [align_single_tf, List.getElem_map]
  · intro i hi hfirst
    have hiT : i < (m1.map BarRow.time).length := by simpa using hi
    have hiA : i < (align_single_tf S (m1.map BarRow.time)).length := by
      simpa [align_single_tf] using hi
    obtain ⟨r, hasof, hrS, hrt, hmax⟩ := asofRow_spec S ((m1.getD i ⟨0, []⟩).time)
      hsort hSne hfirst
    refine ⟨r, hrS, hrt, hmax, ?_⟩
    have ht : m1.getD i ⟨0, []⟩ = m1[i] := List.getD_eq_getElem _ _ hi
    rw [List.getD_eq_getElem _ _ hiA]
    simp only [align_single_tf, List.getElem_map]
    rw [ht] at hasof ⊢
    rw [hasof]
    rfl

/-- C1 witness: a concrete two-row M1 grid and one-row M5 series. -/
theorem align_to_m1_asof_witness :
    ∃ res out,
      align_to_m1 [("M1", [⟨60, [1]⟩, ⟨120, [2]⟩]), ("M5", [⟨60, [5]⟩])] =
        .ok res ∧
      res.lookup "M5" = some out ∧
      out.length = ([⟨60, [1]⟩, ⟨120, [2]⟩] : List BarRow).length ∧
      (∀ i, i < ([⟨60, [1]⟩, ⟨120, [2]⟩] : List BarRow).length →
        (out.getD i ⟨0, none⟩).time =
          (([⟨60, [1]⟩, ⟨120, [2]⟩] : List BarRow).getD i ⟨0, []⟩).time) ∧
      (∀ i, i < ([⟨60, [1]⟩, ⟨120, [2]⟩] : List BarRow).length →
        (([⟨60, [5]⟩] : List BarRow).headD ⟨0, []⟩).time ≤
          (([⟨60, [1]⟩, ⟨120, [2]⟩] : List BarRow).getD i ⟨0, []⟩).time →
        ∃ r, r ∈ ([⟨60, [5]⟩] : List BarRow) ∧
          r.time ≤ (([⟨60, [1]⟩, ⟨120, [2]⟩] : List BarRow).getD i ⟨0, []⟩).time ∧
          (∀ q ∈ ([⟨60, [5]⟩] : List BarRow),
            q.time ≤ (([⟨60, [1]⟩, ⟨120, [2]⟩] : List BarRow).getD i ⟨0, []⟩).time →
            q.time ≤ r.time) ∧
          out.getD i ⟨0, none⟩ =
            ⟨(([⟨60, [1]⟩, ⟨120, [2]⟩] : List BarRow).getD i ⟨0, []⟩).time,
             some r.vals⟩) :=
  align_to_m1_asof [("M1", [⟨60, [1]⟩, ⟨120, [2]⟩]), ("M5", [⟨60, [5]⟩])] "M5"
    [⟨60, [1]⟩, ⟨120, [2]⟩] [⟨60, [5]⟩] (by decide) (by decide) (by decide)
    (by decide) (by decide) (by decide)

/-- C9. When the input dict has no entry for the reference granularity M1,
alignment raises the fatal configuration error instead of returning a
result. -/
theorem align_to_m1_missing_reference (raw : List (String × List BarRow))
    (h : raw.lookup "M1" = none) :
    align_to_m1 raw = .error "M1データが必要です" := by
  simp only [align_to_m1, h]

/-- C9 witness: an input holding only an M5 series. -/
theorem align_to_m1_missing_reference_witness :
    align_to_m1 [("M5", [⟨60, [5]⟩])] = .error "M1データが必要です" :=
  align_to_m1_missing_reference [("M5", [⟨60, [5]⟩])] (by decide)

/-! ## Date handling: config_manager.py and collector.py -/

/-- A calendar date as produced by `datetime.strptime(s, "%Y-%m-%d")`. -/
structure PDate where
  y : Nat
  m : Nat
  d : Nat
deriving DecidableEq

/-- Numeric value of a digit character. -/
def digitVal (c : Char) : Nat := c.toNat - 48

/-- Gregorian leap-year rule, as implemented by Python `datetime`. -/
def isLeap (y : Nat) : Bool :=
  decide ((y % 4 = 0 ∧ ¬ y % 100 = 0) ∨ y % 400 = 0)

/-- Days in a month, as validated by the `datetime` constructor. -/
def daysInMonth (y m : Nat) : Nat :=
  if m = 2 then (if isLeap y then 29 else 28)
  else if m = 4 ∨ m = 6 ∨ m = 9 ∨ m = 11 then 30
  else 31

/-- The month field of `strptime`, regex `1[0-2]|0[1-9]|[1-9]`: a greedy
two-digit match where possible, else one digit.  Greedy matching agrees
with the regex engine's backtracking here because a consumed second digit
can never satisfy the `-` the surrounding pattern requires next. -/
def parseMonth : List Char → Option (Nat × List Char)
  | [] => none
  | c1 :: rest =>
    match rest with
    | c2 :: rest2 =>
      if c1 = '1' ∧ '0' ≤ c2 ∧ c2 ≤ '2' then some (10 + digitVal c2, rest2)
      else if c1 = '0' ∧ '1' ≤ c2 ∧ c2 ≤ '9' then some (digitVal c2, rest2)
      else if '1' ≤ c1 ∧ c1 ≤ '9' then some (digitVal c1, rest)
      else none
    | [] => if '1' ≤ c1 ∧ c1 ≤ '9' then some (digitVal c1, []) else none

/-- The day field of `strptime`, regex `3[01]|[12]\d|0[1-9]|[1-9]` with the
same greedy-equals-backtracking argument (a leftover character fails the
end-of-input check whichever alternative matched). -/
def parseDay : List Char → Option (Nat × List Char)
  | [] => none
  | c1 :: rest =>
    match rest with
    | c2 :: rest2 =>
      if c1 = '3' ∧ '0' ≤ c2 ∧ c2 ≤ '1' then some (30 + digitVal c2, rest2)
      else if ('1' ≤ c1 ∧ c1 ≤ '2') ∧ c2.isDigit = true then
        some (digitVal c1 * 10 + digitVal c2, rest2)
      else if c1 = '0' ∧ '1' ≤ c2 ∧ c2 ≤ '9' then some (digitVal c2, rest2)
      else if '1' ≤ c1 ∧ c1 ≤ '9' then some (digitVal c1, rest)
      else none
    | [] => if '1' ≤ c1 ∧ c1 ≤ '9' then some (digitVal c1, []) else none

/-- Embedding of `datetime.strptime(s, "%Y-%m-%d")`: exactly four year
digits, the month and day fields above, the whole string consumed
(strptime raises on unconverted trailing data), then the `datetime`
constructor's validation (year at least MINYEAR = 1, day within the
month). -/
def parseDate (s : String) : Option PDate :=
  match s.data with
  | c1 :: c2 :: c3 :: c4 :: '-' :: rest =>
    if c1.isDigit && c2.isDigit && c3.isDigit && c4.isDigit then
      match parseMonth rest with
      | some (m, '-' :: rest2) =>
        match parseDay rest2 with
        | some (d, []) =>
          let y := digitVal c1 * 1000 + digitVal c2 * 100 + digitVal c3 * 10 + digitVal c4
          if 1 ≤ y ∧ 1 ≤ d ∧ d ≤ daysInMonth y m then some ⟨y, m, d⟩ else none
        | _ => none
      | _ => none
    else none
  | _ => none

/-- Order key: `datetime` comparison is lexicographic on (year, month,
day); for parsed dates (month at most 12, day at most 31) it coincides
with this packed key. -/
def dkey (dt : PDate) : Nat := dt.y * 10000 + dt.m * 100 + dt.d

/-- Embedding of `ConfigManager._validate_period` (config_manager.py
218-273): a start or end string the date parser rejects raises ValueError,
as does `start_date >= end_date`; the future-end check only warns. -/
def validate_period (startS endS : String) : Except String Unit :=
  match parseDate startS with
  | none => .error "data_collection.period.start の形式が不正です"
  | some sd =>
    match parseDate endS with
    | none => .error "data_collection.period.end の形式が不正です"
    | some ed =>
      if dkey ed ≤ dkey sd then .error "開始日が終了日以降になっています"
      else .ok ()

/-- Zero-padded two-digit rendering (strftime %m / %d). -/
def pad2 (n : Nat) : String := if n < 10 then "0" ++ toString n else toString n

/-- Zero-padded four-digit rendering (strftime %Y). -/
def pad4 (n : Nat) : String :=
  if n < 10 then "000" ++ toString n
  else if n < 100 then "00" ++ toString n
  else if n < 1000 then "0" ++ toString n
  else toString n

/-- `strftime("%Y-%m-%d")`. -/
def fmtDate (dt : PDate) : String := pad4 dt.y ++ "-" ++ pad2 dt.m ++ "-" ++ pad2 dt.d

/-- First day of the following month (`month_start + relativedelta(months=1)`
applied to a day-1 date). -/
def nextMonthStart (dt : PDate) : PDate :=
  if dt.m = 12 then ⟨dt.y + 1, 1, 1⟩ else ⟨dt.y, dt.m + 1, 1⟩

/-- Last day of the month of a day-1 date (`next_month - timedelta(days=1)`). -/
def monthEnd (dt : PDate) : PDate := ⟨dt.y, dt.m, daysInMonth dt.y dt.m⟩

/-- The `while current <= end_dt` loop of `_generate_month_ranges`
(collector.py 286-309), with explicit fuel: each iteration advances
`current` to the next month start, so the month index `12*y + m` grows by
exactly one per iteration and the fuel supplied by the caller covers every
iteration the Python loop performs. -/
def monthLoop : Nat → PDate → PDate → List (String × String)
  | 0, _, _ => []
  | fuel + 1, current, endDt =>
    if dkey endDt < dkey current then []
    else
      let mStart : PDate := ⟨current.y, current.m, 1⟩
      let mEndC := if dkey endDt < dkey (monthEnd mStart) then endDt
        else monthEnd mStart
      (fmtDate mStart, fmtDate mEndC) :: monthLoop fuel (nextMonthStart mStart) endDt

/-- Embedding of `DataCollector._generate_month_ranges` (collector.py
257-309): a ValueError from either strptime is caught, logged and turned
into an empty range list (no exception escapes); likewise a start date
after the end date. -/
def generate_month_ranges (startS endS : String) : List (String × String) :=
  match parseDate startS, parseDate endS with
  | some sd, some ed =>
    if dkey ed < dkey sd then []
    else monthLoop (12 * ed.y + ed.m + 2 - (12 * sd.y + sd.m)) sd ed
  | _, _ => []

/-- The collector-side state the tick stage touches: the container file and
the validator's shared results dict (modelled as the ordered log of
entries assigned into it). -/
structure CollectState where
  file : HFile
  registry : List (String × RVal)
deriving DecidableEq

/-- Embedding of `DataCollector._collect_ticks` (collector.py 195-255) for
one symbol: month ranges are generated (an empty list just logs a warning
and returns), then per month the provider is queried (the external API is
an oracle parameter), an empty result skips the month, and otherwise the
millisecond timestamps are validated and the batch appended.  Logging and
the stats dict are not modelled. -/
def collect_ticks (fetch : String → String → List TickDict)
    (st : CollectState) (startS endS : String) : CollectState :=
  (generate_month_ranges startS endS).foldl
    (fun acc r =>
      let ticks := fetch r.1 r.2
      if ticks.isEmpty then acc
      else
        let nmTick := "Tick[" ++ r.1 ++ "]"
        let tsm := ticks.map TickDict.time_msc
        { file := append_tick_data acc.file ticks,
          registry := acc.registry ++ (check_monotonic tsm nmTick).writes ++
            (check_duplicates tsm nmTick).writes })
    st

/-- The system path from configuration to tick ingestion:
`DataCollector.__init__` runs `config.validate_all()` (whose period part is
`validate_period`) before anything else, and `collect()` later reaches
`_collect_ticks`.  The stages in between (backup, tick-dataset clear, bar
collection, all skippable by configuration) never parse the period strings
and are not modelled.  An `.error` result is an exception raised before any
tick processing. -/
def run_tick_collection (fetch : String → String → List TickDict)
    (st : CollectState) (startS endS : String) : Except String CollectState :=
  match validate_period startS endS with
  | .error e => .error e
  | .ok _ => .ok (collect_ticks fetch st startS endS)

/-- The claim's own notion, written from its words: a well-formed
`YYYY-MM-DD` date string is ten characters, zero-padded four-two-two
digits with dashes, denoting a valid calendar date. -/
def wellFormedYYYYMMDD (s : String) : Bool :=
  match s.data with
  | [a, b, c, d, h1, e, f2, h2, g, k] =>
    let y := digitVal a * 1000 + digitVal b * 100 + digitVal c * 10 + digitVal d
    let m := digitVal e * 10 + digitVal f2
    let dd := digitVal g * 10 + digitVal k
    decide (h1 = '-' ∧ h2 = '-' ∧ a.isDigit = true ∧ b.isDigit = true ∧
      c.isDigit = true ∧ d.isDigit = true ∧ e.isDigit = true ∧
      f2.isDigit = true ∧ g.isDigit = true ∧ k.isDigit = true ∧
      1 ≤ y ∧ 1 ≤ m ∧ m ≤ 12 ∧ 1 ≤ dd ∧ dd ≤ daysInMonth y m)
  | _ => false

/-- C8 (amended). A date-range input whose start or end string the
`%Y-%m-%d` parser rejects, or whose start date is after its end date,
makes the run raise a configuration error during validation, before any
tick processing begins.  (The parser also accepts unpadded variants such
as `2024-1-5`, so not every string failing the strict YYYY-MM-DD form is
rejected — see the counterexample.) -/
theorem tick_collection_fail_fast (startS endS : String)
    (fetch : String → String → List TickDict) (st : CollectState)
    (h : parseDate startS = none ∨ parseDate endS = none ∨
      ∃ sd ed, parseDate startS = some sd ∧ parseDate endS = some ed ∧
        dkey ed < dkey sd) :
    ∃ e, run_tick_collection fetch st startS endS = .error e := by
  rcases h with h1 | h2 | ⟨sd, ed, hsd, hed, hlt⟩
  · simp only [run_tick_collection, validate_period, h1]
    exact ⟨_, rfl⟩
  · cases hs : parseDate startS with
    | none =>
      simp only [run_tick_collection, validate_period, hs]
      exact ⟨_, rfl⟩
    | some sd =>
      simp only [run_tick_collection, validate_period, hs, h2]
      exact ⟨_, rfl⟩
  · simp only [run_tick_collection, validate_period, hsd, hed]
    rw [if_pos (show dkey ed ≤ dkey sd by omega)]
    exact ⟨_, rfl⟩

/-- C8 witness: an unparseable start string is rejected before any tick
processing. -/
theorem tick_collection_fail_fast_witness :
    ∃ e, run_tick_collection (fun _ _ => []) ⟨⟨false, none, [], none⟩, []⟩
      "bad-date" "2024-01-02" = .error e :=
  tick_collection_fail_fast "bad-date" "2024-01-02" (fun _ _ => [])
    ⟨⟨false, none, [], none⟩, []⟩ (Or.inl (by decide))

/-- C8 counterexample: `2024-1-5` is not a well-formed YYYY-MM-DD string,
yet the run does not raise — validation accepts it and tick processing
proceeds, appending the fetched batches of both generated month ranges. -/
theorem tick_collection_fail_fast_cex :
    wellFormedYYYYMMDD "2024-1-5" = false ∧
    run_tick_collection (fun _ _ => [⟨1, 1000, 2, 3, none, none, none⟩])
        ⟨⟨false, none, [], none⟩, []⟩ "2024-1-5" "2024-2-1" =
      .ok ⟨⟨true, some [⟨1, 1000, 2, 3, 0, 0, 0⟩, ⟨1, 1000, 2, 3, 0, 0, 0⟩], [], none⟩,
        [("Tick[2024-01-01]_monotonic", .bool true),
         ("Tick[2024-01-01]_duplicates", .num 0),
         ("Tick[2024-02-01]_monotonic", .bool true),
         ("Tick[2024-02-01]_duplicates", .num 0)]⟩ :=
  ⟨by decide, by rfl⟩

/-- C3 witness: a 3-sample series spanning 180 s at a 60 s nominal interval
misses exactly one sample. -/
theorem gapRatioCheck_spec_witness :
    (gapRatioCheck [0, 120, 180] 60 (5 / 1000) "M1").missing = 1 := by
  have h := gapRatioCheck_spec [0, 120, 180] 60 (5 / 1000) "M1" (by decide)
  have hm := (h.2.1 (by decide)).1
  rw [hm]
  decide
